import Mathlib

/-!
# UPCPixelClusterShapeAnalyzer: cluster-shape vertex compatibility

A shallow embedding of `UPCPixelClusterShapeAnalyzer::analyze` and
`UPCPixelClusterShapeAnalyzer::getContainedHits`
(`src/Analyzers/UPCTriggerAnalyzer/src/UPCPixelClusterShapeAnalyzer.cc`).

Modelling conventions.

* A finite `double`/`float` is an exact rational (`ℚ`): rounding and overflow of finite
  arithmetic are not modelled, and the hit coordinates and the configuration values are
  finite.  The one operation of the source that leaves the finite numbers on finite
  operands, the division by `hit->r`, is modelled with the IEEE-754 special values
  (`Dbl.pinf`, `Dbl.ninf`, `Dbl.nan`), and so is everything computed from its result.
* An `int` counter is an unbounded `Int`: hit counts are assumed to stay below `2^31`.
* The `for` loop over `z0` is modelled with fuel, since it does not terminate for every
  configuration (`zStep_ <= 0`).
-/

namespace UPCPixelClusterShape

/-! ## Values of `double` expressions -/

/-- Value of a `double` expression: a finite number, `+inf`, `-inf` or `NaN`. -/
inductive Dbl where
  | fin (q : ℚ)
  | pinf
  | ninf
  | nan
  deriving DecidableEq

namespace Dbl

/-- Quotient `a / b` of two finite doubles; division by zero yields `NaN` for `0/0` and an
infinity otherwise (the zero divisor is taken as `+0.0`). -/
def divQ (a b : ℚ) : Dbl :=
  if b = 0 then
    (if a = 0 then nan else if 0 < a then pinf else ninf)
  else fin (a / b)

/-- Sum `x + c` with `c` finite. -/
def addQ : Dbl → ℚ → Dbl
  | fin q, c => fin (q + c)
  | pinf, _ => pinf
  | ninf, _ => ninf
  | nan, _ => nan

/-- Difference `x - c` with `c` finite. -/
def subQ : Dbl → ℚ → Dbl
  | fin q, c => fin (q - c)
  | pinf, _ => pinf
  | ninf, _ => ninf
  | nan, _ => nan

/-- Absolute value, the C function `fabs`. -/
def fabs : Dbl → Dbl
  | fin q => fin |q|
  | pinf => pinf
  | ninf => pinf
  | nan => nan

end Dbl

/-! ## Hits and the containment tally (`getContainedHits`) -/

/-- The `struct VertexHit` of the analyzer. -/
structure VertexHit where
  z : ℚ
  r : ℚ
  w : ℚ

/-- The local `double p = 2 * fabs(hit->z - z0)/hit->r + 0.5;` of `getContainedHits`. -/
def predicted (hit : VertexHit) (z0 : ℚ) : Dbl :=
  Dbl.addQ (Dbl.divQ (2 * |hit.z - z0|) hit.r) (1 / 2)

/-- One iteration of the loop of `getContainedHits` on the pair `(n, chi)`:
`if (fabs(p - hit->w) <= 1.) { chi += fabs(p - hit->w); n++; }`. -/
def hitStep (z0 : ℚ) (acc : Int × ℚ) (hit : VertexHit) : Int × ℚ :=
  match Dbl.fabs (Dbl.subQ (predicted hit z0) hit.w) with
  | Dbl.fin d => if d ≤ 1 then (acc.1 + 1, acc.2 + d) else acc
  | Dbl.pinf => acc -- `+inf <= 1.` is false
  | Dbl.nan => acc -- `NaN <= 1.` is false
  | Dbl.ninf => acc -- never the value of `fabs`

/-- The loop of `getContainedHits` over the hits, from the current `(n, chi)`. -/
def containedLoop (z0 : ℚ) : List VertexHit → Int × ℚ → Int × ℚ
  | [], acc => acc
  | hit :: rest, acc => containedLoop z0 rest (hitStep z0 acc hit)

/-- The method `getContainedHits(hits, z0, chi)`: the returned `int` and the value left in
the reference parameter `chi`.  The incoming `chi` is overwritten by `chi = 0.`. -/
def getContainedHits (hits : List VertexHit) (z0 : ℚ) (_chi : ℚ) : Int × ℚ :=
  containedLoop z0 hits (0, 0)

/-! ### The tally as the specification words it -/

/-- The residual `|2*|hit.z - z0|/hit.r + 0.5 - hit.w|` of the specification. -/
def specResidual (z0 : ℚ) (hit : VertexHit) : ℚ :=
  |2 * |hit.z - z0| / hit.r + 1 / 2 - hit.w|

/-- The hits the specification calls contained at `z0`. -/
def specContained (z0 : ℚ) (hits : List VertexHit) : List VertexHit :=
  hits.filter (fun hit => decide (specResidual z0 hit ≤ 1))

/-- Contained-hit count at `z0`: the `int` returned by `getContainedHits`. -/
def countAt (hits : List VertexHit) (z0 : ℚ) : Int :=
  (getContainedHits hits z0 0).1

/-- The locals `zest`, `nhits_max`, `chi`, `chi_max` that live across the scan loop. -/
structure ScanState where
  zest : ℚ
  nhits_max : Int
  chi : ℚ
  chi_max : ℚ

/-- The initialisation `double zest = 0.0; int nhits = 0, nhits_max = 0;
double chi = 0, chi_max = 1e+9;`. -/
def scanInit : ScanState :=
  { zest := 0, nhits_max := 0, chi := 0, chi_max := 1000000000 }

/-- The loop body after the call `nhits = getContainedHits(vhits, z0, chi)`. -/
def selectStep (nhits : Int) (z0 : ℚ) (s : ScanState) : ScanState :=
  if nhits = 0 then s -- `continue`
  else
    let s1 : ScanState :=
      if nhits > s.nhits_max then { s with chi_max := 1000000000, nhits_max := nhits } else s
    if nhits ≥ s1.nhits_max ∧ s1.chi < s1.chi_max then
      { s1 with chi_max := s1.chi, zest := z0 }
    else s1

/-- One iteration of the scan loop at the candidate `z0`. -/
def scanStep (hits : List VertexHit) (z0 : ℚ) (s : ScanState) : ScanState :=
  let res := getContainedHits hits z0 s.chi
  selectStep res.1 z0 { s with chi := res.2 }

/-- The loop `for(double z0 = minZ_; z0 <= maxZ_; z0 += zStep_)`, run with fuel from the
current `z0`; `none` when the fuel runs out before the loop condition fails. -/
def scanLoop (hits : List VertexHit) (maxZ zStep : ℚ) : ℕ → ℚ → ScanState → Option ScanState
  | 0, _, _ => none
  | fuel + 1, z0, s =>
      if z0 ≤ maxZ then scanLoop hits maxZ zStep fuel (z0 + zStep) (scanStep hits z0 s)
      else some s

/-- The value of `clusVtxQual` from the three counts. -/
def qualityOfCounts (nbest nminus nplus : Int) : ℚ :=
  if (nminus + nplus) > 0 then (2 * (nbest : ℚ)) / (((nminus + nplus : Int)) : ℚ)
  else if nbest > 0 then 1000
  else 0

/-- The block `chi = 0; nbest = getContainedHits(vhits,zest,chi); nminus = ...(zest-10.) ...;
nplus = ...(zest+10.) ...;` followed by the computation of `clusVtxQual`. -/
def clusVtxQual (hits : List VertexHit) (zest : ℚ) : ℚ :=
  let chi0 : ℚ := 0
  let rbest := getContainedHits hits zest chi0
  let rminus := getContainedHits hits (zest - 10) rbest.2
  let rplus := getContainedHits hits (zest + 10) rminus.2
  qualityOfCounts rbest.1 rminus.1 rplus.1

/-! ## The polynomial cut and the decision -/

/-- The loop `for(unsigned int i=0; i < clusterPars_.size(); i++)
polyCut += clusterPars_[i]*std::pow((double)nPxlHits,(int)i);` from index `i` on. -/
def polyLoop (nPxlHits : Int) : List ℚ → ℕ → ℚ → ℚ
  | [], _, polyCut => polyCut
  | c :: rest, i, polyCut => polyLoop nPxlHits rest (i + 1) (polyCut + c * (nPxlHits : ℚ) ^ i)

/-- The final value of `polyCut`. -/
def polyCut (clusterPars : List ℚ) (nhitsTrunc : Int) (clusterTrunc : ℚ) (nPxlHits : Int) : ℚ :=
  let p0 := polyLoop nPxlHits clusterPars 0 0
  let p1 := if nPxlHits < nhitsTrunc then 0 else p0
  if p1 > clusterTrunc ∧ clusterTrunc > 0 then clusterTrunc else p1

/-- The flag `accept`: `accept = true; ... if (clusVtxQual < polyCut) accept = false;`. -/
def acceptFlag (clusterPars : List ℚ) (nhitsTrunc : Int) (clusterTrunc : ℚ) (nPxlHits : Int)
    (qual : ℚ) : Bool :=
  let accept := true
  if qual < polyCut clusterPars nhitsTrunc clusterTrunc nPxlHits then false else accept

/-- The polynomial `Σ_i clusterPars[i] * totalHits^i` of the specification. -/
def specPoly (clusterPars : List ℚ) (totalHits : Int) : ℚ :=
  ∑ i ∈ Finset.range clusterPars.length, clusterPars.getD i 0 * (totalHits : ℚ) ^ i

/-- The threshold of the specification: polynomial, then floor, then ceiling. -/
def specThreshold (clusterPars : List ℚ) (nhitsTrunc : Int) (clusterTrunc : ℚ)
    (totalHits : Int) : ℚ :=
  let t0 := specPoly clusterPars totalHits
  let t1 := if totalHits < nhitsTrunc then 0 else t0
  if clusterTrunc > 0 ∧ t1 > clusterTrunc then clusterTrunc else t1

/-! ## The loop over the pixel rechits -/

/-- What `analyze` reads from one `SiPixelRecHit` and from the geometry of its detector
unit: validity, whether `subdetId()` is the pixel barrel, the pixels of the cluster, the
edge predicates of the unit's topology, the global position and the cluster's `sizeY`. -/
structure RecHit where
  isValid : Bool
  inBarrel : Bool
  pixels : List (Int × Int)
  isItEdgePixelInX : Int → Bool
  isItEdgePixelInY : Int → Bool
  gposZ : ℚ
  gposPerp : ℚ
  sizeY : ℚ

/-- The inner loop that sets `pixelOnEdge`, with its `break`. -/
def pixelOnEdge (edgeX edgeY : Int → Bool) : List (Int × Int) → Bool
  | [] => false
  | pixel :: rest =>
      if edgeX pixel.1 || edgeY pixel.2 then true else pixelOnEdge edgeX edgeY rest

/-- The loop over the rechits from the current `(nPxlHits, vhits)`. -/
def collectLoop : List RecHit → Int × List VertexHit → Int × List VertexHit
  | [], acc => acc
  | hit :: rest, acc =>
      if !hit.isValid then collectLoop rest acc
      else
        let nPxlHits := acc.1 + 1
        if !hit.inBarrel then collectLoop rest (nPxlHits, acc.2)
        else if pixelOnEdge hit.isItEdgePixelInX hit.isItEdgePixelInY hit.pixels then
          collectLoop rest (nPxlHits, acc.2)
        else
          collectLoop rest
            (nPxlHits, acc.2 ++ [{ z := hit.gposZ, r := hit.gposPerp, w := hit.sizeY }])

/-- The block `nPxlHits=0; std::vector<VertexHit> vhits; for(...) {...}`. -/
def collectHits (recHits : List RecHit) : Int × List VertexHit :=
  collectLoop recHits (0, [])

/-! ## The method `analyze` -/

/-- The configuration members read in the constructor. -/
structure Config where
  minZ : ℚ
  maxZ : ℚ
  zStep : ℚ
  clusterPars : List ℚ
  nhitsTrunc : Int
  clusterTrunc : ℚ

/-- The members `accept` and `nPxlHits` written to the tree by `ClusterShapeTree->Fill()`. -/
structure Filled where
  accept : Bool
  nPxlHits : Int
  deriving DecidableEq

/-- The method `analyze`: `hRecHits` is `none` when the handle is not valid, `nPxlHits0` is
the value of the member `nPxlHits` on entry; `none` when the fuel of the scan runs out. -/
def analyze (cfg : Config) (fuel : ℕ) (nPxlHits0 : Int) (hRecHits : Option (List RecHit)) :
    Option Filled :=
  match hRecHits with
  | none => some { accept := true, nPxlHits := nPxlHits0 }
  | some recHits =>
      let collected := collectHits recHits
      match scanLoop collected.2 cfg.maxZ cfg.zStep fuel cfg.minZ scanInit with
      | none => none
      | some s =>
          some
            { accept := acceptFlag cfg.clusterPars cfg.nhitsTrunc cfg.clusterTrunc collected.1
                (clusVtxQual collected.2 s.zest)
              nPxlHits := collected.1 }

/-! ## Auxiliary notions for the scan -/

theorem hitStep_of_ne_zero (z0 : ℚ) (acc : Int × ℚ) (hit : VertexHit) (hr : hit.r ≠ 0) :
    hitStep z0 acc hit =
      if specResidual z0 hit ≤ 1 then (acc.1 + 1, acc.2 + specResidual z0 hit) else acc := by
  simp [hitStep, predicted, Dbl.divQ, hr, Dbl.addQ, Dbl.subQ, Dbl.fabs, specResidual]

theorem hitStep_of_eq_zero (z0 : ℚ) (acc : Int × ℚ) (hit : VertexHit) (hr : hit.r = 0) :
    hitStep z0 acc hit = acc := by
  unfold hitStep predicted Dbl.divQ
  rw [if_pos hr]
  split_ifs <;> simp [Dbl.addQ, Dbl.subQ, Dbl.fabs]

theorem containedLoop_spec (z0 : ℚ) (hits : List VertexHit)
    (hr : ∀ hit ∈ hits, hit.r ≠ 0) (acc : Int × ℚ) :
    containedLoop z0 hits acc =
      (acc.1 + ((specContained z0 hits).length : Int),
        acc.2 + ((specContained z0 hits).map (specResidual z0)).sum) := by
  induction hits generalizing acc with
  | nil => simp [containedLoop, specContained]
  | cons x xs ih =>
    have hx : x.r ≠ 0 := hr x (List.mem_cons_self _ _)
    have hxs : ∀ hit ∈ xs, hit.r ≠ 0 := fun h hh => hr h (List.mem_cons_of_mem _ hh)
    rw [containedLoop, ih hxs, hitStep_of_ne_zero z0 acc x hx]
    by_cases hc : specResidual z0 x ≤ 1
    · simp only [specContained] at *
      simp [hc, List.filter_cons]
      constructor <;> ring
    · simp only [specContained] at *
      simp [hc, List.filter_cons]

theorem containedLoop_bounds (z0 : ℚ) (hits : List VertexHit) (acc : Int × ℚ) :
    ∃ a : Int, ∃ b : ℚ, containedLoop z0 hits acc = (acc.1 + a, acc.2 + b) ∧
      0 ≤ a ∧ a ≤ (hits.length : Int) ∧ 0 ≤ b ∧ b ≤ (a : ℚ) := by
  induction hits generalizing acc with
  | nil => exact ⟨0, 0, by simp [containedLoop]⟩
  | cons x xs ih =>
    obtain ⟨a, b, h, ha0, hal, hb0, hba⟩ := ih (hitStep z0 acc x)
    rw [containedLoop, h]
    by_cases hr : x.r = 0
    · rw [hitStep_of_eq_zero z0 acc x hr]
      refine ⟨a, b, rfl, ha0, ?_, hb0, hba⟩
      simp only [List.length_cons]
      push_cast
      omega
    · rw [hitStep_of_ne_zero z0 acc x hr]
      by_cases hc : specResidual z0 x ≤ 1
      · have h0 : 0 ≤ specResidual z0 x := abs_nonneg _
        refine ⟨1 + a, specResidual z0 x + b, ?_, by omega, ?_, by linarith, ?_⟩
        · simp only [hc, if_true]
          ext <;> simp <;> ring
        · simp only [List.length_cons]
          push_cast
          omega
        · push_cast
          linarith
      · refine ⟨a, b, by simp [hc], ha0, ?_, hb0, hba⟩
        simp only [List.length_cons]
        push_cast
        omega

theorem countAt_nonneg (hits : List VertexHit) (z0 : ℚ) : 0 ≤ countAt hits z0 := by
  obtain ⟨a, b, h, ha0, -, -, -⟩ := containedLoop_bounds z0 hits (0, 0)
  simp only [countAt, getContainedHits, h]
  simpa using ha0

theorem polyLoop_eq (n : Int) (cs : List ℚ) (i : ℕ) (acc : ℚ) :
    polyLoop n cs i acc =
      acc + ∑ j ∈ Finset.range cs.length, cs.getD j 0 * (n : ℚ) ^ (i + j) := by
  induction cs generalizing i acc with
  | nil => simp [polyLoop]
  | cons c cs ih =>
    rw [polyLoop, ih, List.length_cons, Finset.sum_range_succ']
    simp only [List.getD_cons_succ, List.getD_cons_zero, add_zero]
    have : ∀ j, i + 1 + j = i + (j + 1) := fun j => by omega
    simp only [this]
    ring

theorem polyLoop_eq_specPoly (n : Int) (cs : List ℚ) : polyLoop n cs 0 0 = specPoly cs n := by
  rw [polyLoop_eq]
  simp [specPoly]

theorem polyCut_eq_specThreshold (cs : List ℚ) (nt : Int) (ct : ℚ) (n : Int) :
    polyCut cs nt ct n = specThreshold cs nt ct n := by
  simp only [polyCut, specThreshold, polyLoop_eq_specPoly]
  by_cases h : n < nt <;> simp only [h, if_true, if_false] <;>
    split_ifs <;> first | rfl | (exfalso; tauto)

theorem collectLoop_fst (rs : List RecHit) (acc : Int × List VertexHit) :
    (collectLoop rs acc).1 = acc.1 + ((rs.filter (fun h => h.isValid)).length : Int) := by
  induction rs generalizing acc with
  | nil => simp [collectLoop]
  | cons x xs ih =>
    rw [collectLoop]
    cases hv : x.isValid <;> simp only [Bool.not_true, Bool.not_false, if_true]
    · simp [ih, List.filter_cons, hv]
    · simp only [Bool.false_eq_true, if_false]
      split_ifs <;> simp [ih, List.filter_cons, hv] <;> ring

theorem collectLoop_snd_length (rs : List RecHit) (acc : Int × List VertexHit) :
    (collectLoop rs acc).2.length = acc.2.length +
      (rs.filter (fun h => h.isValid && h.inBarrel &&
        !pixelOnEdge h.isItEdgePixelInX h.isItEdgePixelInY h.pixels)).length := by
  induction rs generalizing acc with
  | nil => simp [collectLoop]
  | cons x xs ih =>
    rw [collectLoop]
    cases hv : x.isValid <;> simp only [Bool.not_true, Bool.not_false, if_true]
    · simp [ih, List.filter_cons, hv]
    · simp only [Bool.false_eq_true, if_false]
      cases hb : x.inBarrel <;> simp only [Bool.not_true, Bool.not_false, if_true]
      · simp [ih, List.filter_cons, hv, hb]
      · simp only [Bool.false_eq_true, if_false]
        cases he : pixelOnEdge x.isItEdgePixelInX x.isItEdgePixelInY x.pixels
        · simp [ih, List.filter_cons, hv, hb, he]
          ring
        · simp [ih, List.filter_cons, hv, hb, he]

/-! ## The tally of `getContainedHits` -/

/-- C2: when every hit has `r > 0`, `getContainedHits` returns the number of hits with
`|2*|hit.z - z0|/hit.r + 0.5 - hit.w| <= 1` and leaves in `chi` the sum of that quantity
over those hits, whatever `chi` held before the call. -/
theorem getContainedHits_tally (hits : List VertexHit) (z0 chi : ℚ)
    (hr : ∀ hit ∈ hits, 0 < hit.r) :
    getContainedHits hits z0 chi =
      (((specContained z0 hits).length : Int),
        ((specContained z0 hits).map (specResidual z0)).sum) := by
  have h := containedLoop_spec z0 hits (fun hit hh => ne_of_gt (hr hit hh)) (0, 0)
  simpa [getContainedHits] using h

/-- C2 at two hits, one contained at `z0 = 0` with residual `1/4` and one not, with a
previous `chi` of `7`. -/
theorem getContainedHits_tally_witness :
    getContainedHits [{ z := 0, r := 10, w := 3 / 4 }, { z := 30, r := 10, w := 1 }] 0 7 =
      (1, 1 / 4) :=
  (getContainedHits_tally [{ z := 0, r := 10, w := 3 / 4 }, { z := 30, r := 10, w := 1 }] 0 7
    (by intro hit hh; simp at hh; rcases hh with rfl | rfl <;> norm_num)).trans
    (by norm_num [specContained, specResidual, List.filter_cons, abs_of_nonneg, abs_of_neg])

/-! ## The quality ratio -/

/-- C3: with `nBest`, `nMinus`, `nPlus` the counts at `bestZ`, `bestZ - 10`, `bestZ + 10`,
`clusVtxQual` is `2*nBest/(nMinus+nPlus)` when `nMinus+nPlus > 0`, `1000` when
`nMinus+nPlus = 0` and `nBest > 0`, `0` when the three counts are zero, and never negative. -/
theorem clusVtxQual_cases (hits : List VertexHit) (bestZ : ℚ) :
    (0 < countAt hits (bestZ - 10) + countAt hits (bestZ + 10) →
        clusVtxQual hits bestZ =
          2 * (countAt hits bestZ : ℚ) /
            ((countAt hits (bestZ - 10) : ℚ) + (countAt hits (bestZ + 10) : ℚ))) ∧
      (countAt hits (bestZ - 10) + countAt hits (bestZ + 10) = 0 → 0 < countAt hits bestZ →
        clusVtxQual hits bestZ = 1000) ∧
      (countAt hits bestZ = 0 → countAt hits (bestZ - 10) = 0 →
        countAt hits (bestZ + 10) = 0 → clusVtxQual hits bestZ = 0) ∧
      0 ≤ clusVtxQual hits bestZ := by
  have hq : clusVtxQual hits bestZ =
      qualityOfCounts (countAt hits bestZ) (countAt hits (bestZ - 10))
        (countAt hits (bestZ + 10)) := rfl
  have hb := countAt_nonneg hits bestZ
  have hm := countAt_nonneg hits (bestZ - 10)
  have hp := countAt_nonneg hits (bestZ + 10)
  rw [hq]
  refine ⟨?_, ?_, ?_, ?_⟩
  · intro h
    simp only [qualityOfCounts, gt_iff_lt, h, if_true]
    push_cast
    rfl
  · intro h0 hpos
    have hn : ¬ (0 < countAt hits (bestZ - 10) + countAt hits (bestZ + 10)) := by omega
    simp only [qualityOfCounts, gt_iff_lt, hn, if_false, hpos, if_true]
  · intro h1 h2 h3
    simp [qualityOfCounts, h1, h2, h3]
  · unfold qualityOfCounts
    split_ifs with h1 h2
    · apply div_nonneg
      · have : (0 : ℚ) ≤ (countAt hits bestZ : ℚ) := by exact_mod_cast hb
        linarith
      · exact_mod_cast le_of_lt h1
    · norm_num
    · exact le_refl _

/-- C3 at three hits contained at `bestZ = 0` and at neither control position: the
quality ratio is the sentinel `1000`. -/
theorem clusVtxQual_cases_witness :
    clusVtxQual [{ z := 0, r := 10, w := 1 / 2 }, { z := 0, r := 10, w := 1 / 2 },
      { z := 0, r := 10, w := 1 / 2 }] 0 = 1000 :=
  (clusVtxQual_cases [{ z := 0, r := 10, w := 1 / 2 }, { z := 0, r := 10, w := 1 / 2 },
      { z := 0, r := 10, w := 1 / 2 }] 0).2.1
    (by norm_num [countAt, getContainedHits, containedLoop, hitStep, predicted, Dbl.divQ,
      Dbl.addQ, Dbl.subQ, Dbl.fabs])
    (by norm_num [countAt, getContainedHits, containedLoop, hitStep, predicted, Dbl.divQ,
      Dbl.addQ, Dbl.subQ, Dbl.fabs])

/-! ## The polynomial cut -/

/-- C4: `accept` is true exactly when the quality ratio is at least the threshold, the
threshold being the polynomial `Σ_i clusterPars[i] * totalHits^i`, set to `0` below
`nhitsTrunc`, then capped at a positive `clusterTrunc`; the polynomial of an empty
coefficient list is `0`, and at `totalHits = 0` it is the constant coefficient. -/
theorem acceptFlag_iff (clusterPars : List ℚ) (nhitsTrunc : Int) (clusterTrunc : ℚ)
    (totalHits : Int) (qualityRatio : ℚ) :
    (acceptFlag clusterPars nhitsTrunc clusterTrunc totalHits qualityRatio = true ↔
        specThreshold clusterPars nhitsTrunc clusterTrunc totalHits ≤ qualityRatio) ∧
      polyCut clusterPars nhitsTrunc clusterTrunc totalHits =
        specThreshold clusterPars nhitsTrunc clusterTrunc totalHits ∧
      polyLoop totalHits [] 0 0 = 0 ∧
      ∀ c : ℚ, ∀ cs : List ℚ, polyLoop 0 (c :: cs) 0 0 = c := by
  refine ⟨?_, polyCut_eq_specThreshold _ _ _ _, rfl, ?_⟩
  · unfold acceptFlag
    rw [polyCut_eq_specThreshold]
    by_cases h : qualityRatio < specThreshold clusterPars nhitsTrunc clusterTrunc totalHits
    · simp [h]
    · simp [h, not_lt.mp h]
  · intro c cs
    rw [polyLoop_eq, List.length_cons, Finset.sum_range_succ']
    simp

/-- C7, as stated, fails: with the single coefficient `-1`, `3` hits, `nhitsTrunc = 0` and
the ceiling disabled, the final `polyCut` is negative. -/
theorem polyCut_negative_example : ¬ (0 ≤ polyCut [-1] 0 0 3) := by
  norm_num [polyCut, polyLoop]

/-- C7, amended: the final `polyCut` is non-negative exactly when `totalHits < nhitsTrunc`
or the polynomial sum itself is non-negative; there is no lower clamp. -/
theorem polyCut_nonneg_iff (clusterPars : List ℚ) (nhitsTrunc : Int) (clusterTrunc : ℚ)
    (totalHits : Int) :
    0 ≤ polyCut clusterPars nhitsTrunc clusterTrunc totalHits ↔
      (totalHits < nhitsTrunc ∨ 0 ≤ specPoly clusterPars totalHits) := by
  simp only [polyCut, polyLoop_eq_specPoly]
  by_cases h : totalHits < nhitsTrunc
  · simp only [h, if_true, true_or, iff_true]
    split_ifs with h2
    · exact le_of_lt h2.2
    · exact le_refl _
  · simp only [h, if_false, false_or]
    split_ifs with h2
    · constructor
      · intro _
        linarith [h2.1, h2.2]
      · intro _
        exact le_of_lt h2.2
    · exact Iff.rfl

/-- C8: below `nhitsTrunc` the final `polyCut` is exactly `0`, whatever the coefficients
and `clusterTrunc`. -/
theorem polyCut_floor (clusterPars : List ℚ) (nhitsTrunc : Int) (clusterTrunc : ℚ)
    (totalHits : Int) (h : totalHits < nhitsTrunc) :
    polyCut clusterPars nhitsTrunc clusterTrunc totalHits = 0 := by
  simp only [polyCut, h, if_true]
  split_ifs with h2
  · linarith [h2.1, h2.2]
  · rfl

/-- C8 at an empty event with `nhitsTrunc = 1` and the single coefficient `5`. -/
theorem polyCut_floor_witness : polyCut [5] 1 (-3) 0 = 0 :=
  polyCut_floor [5] 1 (-3) 0 (by decide)

/-- C9: with `clusterTrunc > 0` the final `polyCut` is at most `clusterTrunc`. -/
theorem polyCut_ceiling (clusterPars : List ℚ) (nhitsTrunc : Int) (clusterTrunc : ℚ)
    (totalHits : Int) (h : 0 < clusterTrunc) :
    polyCut clusterPars nhitsTrunc clusterTrunc totalHits ≤ clusterTrunc := by
  simp only [polyCut]
  generalize (if totalHits < nhitsTrunc then (0 : ℚ) else polyLoop totalHits clusterPars 0 0) = p1
  split_ifs with h2
  · exact le_refl _
  · by_contra hc
    exact h2 ⟨not_le.mp hc, h⟩

/-- C9 at the coefficients `5 + 2*n`, `4` hits and `clusterTrunc = 2`. -/
theorem polyCut_ceiling_witness : polyCut [5, 2] 0 2 4 ≤ 2 :=
  polyCut_ceiling [5, 2] 0 2 4 (by norm_num)

/-! ## Hits with `r = 0` -/

/-- C10, as stated, fails: for one valid rechit outside the barrel, `nPxlHits` is `1`
while `vhits` is empty. -/
theorem nPxlHits_ne_vhits_length_example :
    (collectHits [
        { isValid := true, inBarrel := false, pixels := [],
          isItEdgePixelInX := (fun _ => false), isItEdgePixelInY := (fun _ => false),
          gposZ := 0, gposPerp := 10, sizeY := 1 }]).1 ≠
      (((collectHits [
        { isValid := true, inBarrel := false, pixels := [],
          isItEdgePixelInX := (fun _ => false), isItEdgePixelInY := (fun _ => false),
          gposZ := 0, gposPerp := 10, sizeY := 1 }]).2.length : ℕ) : Int) := by
  simp [collectHits, collectLoop]

/-- C10, amended: `nPxlHits` is the number of valid rechits, `vhits` holds the valid
rechits that are in the barrel and have no edge pixel, so `vhits.size() <= nPxlHits`;
`analyze` evaluates the polynomial at `nPxlHits` and fills the tree with it. -/
theorem nPxlHits_counts_valid (recHits : List RecHit) :
    (collectHits recHits).1 = ((recHits.filter (fun h => h.isValid)).length : Int) ∧
      (collectHits recHits).2.length =
        (recHits.filter (fun h => h.isValid && h.inBarrel &&
          !pixelOnEdge h.isItEdgePixelInX h.isItEdgePixelInY h.pixels)).length ∧
      (((collectHits recHits).2.length : ℕ) : Int) ≤ (collectHits recHits).1 ∧
      ∀ (cfg : Config) (fuel : ℕ) (nPxlHits0 : Int),
        analyze cfg fuel nPxlHits0 (some recHits) =
          (scanLoop (collectHits recHits).2 cfg.maxZ cfg.zStep fuel cfg.minZ scanInit).map
            (fun s =>
              { accept := acceptFlag cfg.clusterPars cfg.nhitsTrunc cfg.clusterTrunc
                  (collectHits recHits).1 (clusVtxQual (collectHits recHits).2 s.zest)
                nPxlHits := (collectHits recHits).1 }) := by
  have h1 : (collectHits recHits).1 = ((recHits.filter (fun h => h.isValid)).length : Int) := by
    simp [collectHits, collectLoop_fst]
  have h2 : (collectHits recHits).2.length =
      (recHits.filter (fun h => h.isValid && h.inBarrel &&
        !pixelOnEdge h.isItEdgePixelInX h.isItEdgePixelInY h.pixels)).length := by
    simp [collectHits, collectLoop_snd_length]
  refine ⟨h1, h2, ?_, ?_⟩
  · rw [h1, h2]
    have hsub := List.monotone_filter_right recHits
      (p := fun h => h.isValid && h.inBarrel &&
        !pixelOnEdge h.isItEdgePixelInX h.isItEdgePixelInY h.pixels)
      (q := fun h => h.isValid)
      (by
        intro a ha
        simp only [Bool.and_eq_true] at ha
        exact ha.1.1)
    exact_mod_cast hsub.length_le
  · intro cfg fuel nPxlHits0
    simp only [analyze]
    cases scanLoop (collectHits recHits).2 cfg.maxZ cfg.zStep fuel cfg.minZ scanInit <;> rfl

/-! ## The scan -/

/-- Three hits `z = 0, r = 10, w = 1/2` scanned over `[-5, 5]` in steps of `1`: every
candidate contains the three hits, the residual is least at `z0 = 0`, and the scan ends
with `zest = 0`. -/
theorem scenarioA_scan :
    ∃ s : ScanState,
      scanLoop [{ z := 0, r := 10, w := 1 / 2 }, { z := 0, r := 10, w := 1 / 2 },
        { z := 0, r := 10, w := 1 / 2 }] 5 1 12 (-5) scanInit = some s ∧ s.zest = 0 := by
  refine ⟨{ zest := 0, nhits_max := 3, chi := 3, chi_max := 0 }, ?_, rfl⟩
  norm_num [scanLoop, scanStep, selectStep, getContainedHits, containedLoop, hitStep,
    predicted, Dbl.divQ, Dbl.addQ, Dbl.subQ, Dbl.fabs, scanInit, abs_of_nonneg, abs_of_neg]

/-- An event without rechits, `nhitsTrunc = 1` and the single coefficient `5`: the cut is
forced to `0`, the quality is `0`, and the event is accepted with `nPxlHits = 0`. -/
theorem scenarioB_analyze :
    analyze
        { minZ := -5, maxZ := 5, zStep := 1, clusterPars := [5], nhitsTrunc := 1,
          clusterTrunc := 0 }
        12 0 (some []) = some { accept := true, nPxlHits := 0 } := by
  norm_num [analyze, collectHits, collectLoop, scanLoop, scanStep, selectStep,
    getContainedHits, containedLoop, scanInit, acceptFlag, polyCut, polyLoop, clusVtxQual,
    qualityOfCounts]

end UPCPixelClusterShape
